import Mathlib

/-!
Verification of the memset dispatch and tiering logic of
`libc/src/string/memory_utils/memset_implementations.h`.

The embedding gives each fill routine a trace semantics: a routine produces
the list of fixed-width store operations it performs, in program order.  A
store writes one splatted byte value to `width` consecutive addresses; memory
is a total map from addresses to byte values, and running a trace folds the
stores over the memory.  The collaborator primitives (`op_generic.h`,
`generic/byte_per_byte.h`, `utils.h`, `op_aarch64.h`) are not part of the
repository snapshot, so they are modelled from the specification's interface
descriptions; each such definition is marked below.  Pointers are modelled as
natural-number addresses and `size_t` as `Nat` (the dispatchers only subtract
where the subtrahend is provably no larger, so truncated subtraction agrees
with the machine arithmetic on every reachable path).
-/

namespace LlvmLibcMemset

/-- One fixed-width store operation: `width` consecutive bytes starting at
`addr` all receive the byte `val`.  `aligned` records whether the store was
issued through the aligned-store primitive (which asserts its address is a
multiple of the width). -/
structure Store where
  addr : Nat
  width : Nat
  val : Nat
  aligned : Bool
deriving DecidableEq, Repr

/-- Byte-addressed memory. -/
def Mem : Type := Nat → Nat

/-- Effect of a single store on memory. -/
def writeStore (s : Store) (m : Mem) : Mem :=
  fun x => if s.addr ≤ x ∧ x < s.addr + s.width then s.val else m x

/-- Run a trace of stores, in order, over a memory. -/
def runTrace (tr : List Store) (m : Mem) : Mem :=
  tr.foldl (fun acc s => writeStore s acc) m

/-- Modelled from the spec: `distance_to_align_up` of `utils.h` (not in the
snapshot) — the distance from address `a` up to the next multiple of
`alignment` ("compute bytesToAlign = distance from dst to the next word
boundary"). -/
def distance_to_align_up (alignment a : Nat) : Nat :=
  (alignment - a % alignment) % alignment

/-- Modelled from the spec: `align_to_next_boundary` of `utils.h` (not in the
snapshot) — "align the pointer up to a boundary", advancing the pointer and
decreasing the count by the same amount.  Returns the new pointer and count. -/
def align_to_next_boundary (alignment a count : Nat) : Nat × Nat :=
  (a + distance_to_align_up alignment a, count - distance_to_align_up alignment a)

/-- Modelled from the spec: `generic::Memset<T>::block` of `op_generic.h` (not
in the snapshot) — splat the byte across a `w`-byte unit and store it at `a`:
every byte of `[a, a+w)` receives `value`. -/
def MemsetBlock (w a value : Nat) : List Store :=
  [Store.mk a w value false]

/-- Modelled from the spec: `generic::Memset<T>::tail` of `op_generic.h` (not
in the snapshot) — a block store at `a + count - w`, the last `w` bytes of the
range. -/
def MemsetTail (w a value count : Nat) : List Store :=
  [Store.mk (a + count - w) w value false]

/-- Modelled from the spec: `generic::Memset<T>::head_tail` — "store the fill
pattern at the start of the range AND at `dst + count - width`". -/
def MemsetHeadTail (w a value count : Nat) : List Store :=
  MemsetBlock w a value ++ MemsetTail w a value count

/-- Modelled from the spec: `generic::MemsetSequence<uint16_t, uint8_t>::block`
— a 16-bit store followed by an 8-bit store directly after it (sequence, not
overlapping). -/
def MemsetSequence_16_8 (a value : Nat) : List Store :=
  [Store.mk a 2 value false, Store.mk (a + 2) 1 value false]

/-- Modelled from the spec: the do/while loop inside
`generic::Memset<T>::loop_and_tail` of `op_generic.h` (not in the snapshot) —
block stores at offsets `0, w, 2w, ...`, continuing while the next offset is
below `count - w`.  `al` tags the stores of the cache-line-zeroing variant,
whose blocks are inherently aligned.  The `0 < w` guard only frames the
recursion: every instantiation has `w ≥ 2` (the C++ code statically asserts
`SIZE > 1`). -/
def loopBlocks (w a value count offset : Nat) (al : Bool) : List Store :=
  Store.mk (a + offset) w value al ::
    (if _h : 0 < w ∧ offset + w < count - w then
      loopBlocks w a value count (offset + w) al
    else [])
termination_by count - offset
decreasing_by omega

/-- Modelled from the spec: `generic::Memset<T>::loop_and_tail` — the block
loop followed by an overlapping tail store. -/
def loop_and_tail (w a value count : Nat) : List Store :=
  loopBlocks w a value count 0 false ++ MemsetTail w a value count

/-- Modelled from the spec: `aarch64::neon::BzeroCacheLine::loop_and_tail` of
`op_aarch64.h` (not in the snapshot) — "the dedicated cache-line-zeroing loop
(an external collaborator) for the aligned body plus tail": a loop of aligned
64-byte zeroing blocks followed by an unaligned 512-bit zero tail store. -/
def BzeroCacheLine_loop_and_tail (a count : Nat) : List Store :=
  loopBlocks 64 a 0 count 0 true ++ MemsetTail 64 a 0 count

/-- Modelled from the spec: `inline_memset_byte_per_byte` of
`generic/byte_per_byte.h` (not in the snapshot) — "fills count bytes one at a
time starting at an optional offset". -/
def inline_memset_byte_per_byte (dst value count offset : Nat) : List Store :=
  if _h : offset < count then
    Store.mk (dst + offset) 1 value false ::
      inline_memset_byte_per_byte dst value count (offset + 1)
  else []
termination_by count - offset
decreasing_by omega

/-- The `for` loop of the aligned-access strategies: aligned word stores of
width `w` at increasing offsets while `offset < count - w`.  Returns the trace
together with the final value of `offset` (which the tail fill resumes from).
The `0 < w` guard only frames the recursion: both instantiations use a
positive word size. -/
def alignedWordLoop (w dst value count offset : Nat) : List Store × Nat :=
  if _h : 0 < w ∧ offset < count - w then
    let r := alignedWordLoop w dst value count (offset + w)
    (Store.mk (dst + offset) w value true :: r.1, r.2)
  else ([], offset)
termination_by count - offset
decreasing_by omega

/-- `inline_memset_aligned_access_32bit` (lines 26-37 of
`memset_implementations.h`): delegate small counts to the byte-per-byte
fallback, otherwise byte-fill up to the next 4-byte boundary, store aligned
32-bit words, and byte-fill the tail from the loop's final offset. -/
def inline_memset_aligned_access_32bit (dst value count : Nat) : List Store :=
  if count ≤ 2 * 4 then inline_memset_byte_per_byte dst value count 0
  else
    let bytes_to_dst_align := distance_to_align_up 4 dst
    let r := alignedWordLoop 4 dst value count bytes_to_dst_align
    inline_memset_byte_per_byte dst value bytes_to_dst_align 0 ++ r.1 ++
      inline_memset_byte_per_byte dst value count r.2

/-- `inline_memset_aligned_access_64bit` (lines 39-50): the 8-byte-word
instance of the same strategy. -/
def inline_memset_aligned_access_64bit (dst value count : Nat) : List Store :=
  if count ≤ 2 * 8 then inline_memset_byte_per_byte dst value count 0
  else
    let bytes_to_dst_align := distance_to_align_up 8 dst
    let r := alignedWordLoop 8 dst value count bytes_to_dst_align
    inline_memset_byte_per_byte dst value bytes_to_dst_align 0 ++ r.1 ++
      inline_memset_byte_per_byte dst value count r.2

/-- `inline_memset_x86` (lines 53-95): the x86 size-tiered dispatcher.  Widths
are in bytes: `uint32_t` is 4, ..., `uint512_t` is 64; the composed vector
types have the same total width, which is all the trace semantics records. -/
def inline_memset_x86 (dst value count : Nat) : List Store :=
  if count = 0 then []
  else if count = 1 then MemsetBlock 1 dst value
  else if count = 2 then MemsetBlock 2 dst value
  else if count = 3 then MemsetSequence_16_8 dst value
  else if count ≤ 8 then MemsetHeadTail 4 dst value count
  else if count ≤ 16 then MemsetHeadTail 8 dst value count
  else if count ≤ 32 then MemsetHeadTail 16 dst value count
  else if count ≤ 64 then MemsetHeadTail 32 dst value count
  else if count ≤ 128 then MemsetHeadTail 64 dst value count
  else
    MemsetBlock 32 dst value ++
      (let p := align_to_next_boundary 32 dst count
       loop_and_tail 32 p.1 value p.2)

/-- The branch condition of the AArch64 zero-fill fast path (line 127):
`count >= 448 && value == 0 && aarch64::neon::hasZva()`.  The capability query
is passed in as the boolean `hasZva`. -/
def aarch64_zva_condition (hasZva : Bool) (value count : Nat) : Bool :=
  decide (448 ≤ count) && (value == 0) && hasZva

/-- `inline_memset_aarch64` (lines 99-136): the AArch64 size-tiered
dispatcher. -/
def inline_memset_aarch64 (hasZva : Bool) (dst value count : Nat) : List Store :=
  if count = 0 then []
  else if count ≤ 3 then
    MemsetBlock 1 dst value ++
      (if 1 < count then MemsetTail 2 dst value count else [])
  else if count ≤ 8 then MemsetHeadTail 4 dst value count
  else if count ≤ 16 then MemsetHeadTail 8 dst value count
  else if count ≤ 32 then MemsetHeadTail 16 dst value count
  else if count ≤ 32 + 64 then
    MemsetBlock 32 dst value ++
      (if count ≤ 64 then MemsetTail 32 dst value count
       else MemsetBlock 32 (dst + 32) value ++ MemsetTail 32 dst value count)
  else if aarch64_zva_condition hasZva value count then
    MemsetBlock 64 dst 0 ++
      (let p := align_to_next_boundary 64 dst count
       BzeroCacheLine_loop_and_tail p.1 p.2)
  else
    MemsetBlock 16 dst value ++
      (let p := align_to_next_boundary 16 dst count
       loop_and_tail 64 p.1 value p.2)

/-- The architecture the binary is built for: the compile-time dispatch
variants of `inline_memset` (lines 139-151). -/
inductive Arch where
  | x86
  | aarch64
  | riscv64
  | riscv32
  | generic
deriving DecidableEq, Repr

/-- `inline_memset` (lines 139-151): the top-level selector, one branch per
target architecture. -/
def inline_memset (arch : Arch) (hasZva : Bool) (dst value count : Nat) :
    List Store :=
  match arch with
  | .x86 => inline_memset_x86 dst value count
  | .aarch64 => inline_memset_aarch64 hasZva dst value count
  | .riscv64 => inline_memset_aligned_access_64bit dst value count
  | .riscv32 => inline_memset_aligned_access_32bit dst value count
  | .generic => inline_memset_byte_per_byte dst value count 0

/-- `x` is one of the bytes written by store `s`. -/
def covers (s : Store) (x : Nat) : Prop :=
  s.addr ≤ x ∧ x < s.addr + s.width

instance (s : Store) (x : Nat) : Decidable (covers s x) := by
  unfold covers; infer_instance

/-- Every store of the trace writes the byte `v` and stays inside
`[lo, hi)`. -/
def storesIn (lo hi v : Nat) (tr : List Store) : Prop :=
  ∀ s ∈ tr, s.val = v ∧ lo ≤ s.addr ∧ s.addr + s.width ≤ hi

/-- Every address of `[lo, hi)` is written by some store of the trace. -/
def coversRange (lo hi : Nat) (tr : List Store) : Prop :=
  ∀ x, lo ≤ x → x < hi → ∃ s ∈ tr, covers s x

/-! ### Unfolding lemmas for the loop definitions -/

theorem loopBlocks_step (w a value count offset : Nat) (al : Bool)
    (h : 0 < w ∧ offset + w < count - w) :
    loopBlocks w a value count offset al =
      Store.mk (a + offset) w value al ::
        loopBlocks w a value count (offset + w) al := by
  rw [loopBlocks]
  rw [dif_pos h]

theorem loopBlocks_last (w a value count offset : Nat) (al : Bool)
    (h : ¬ (0 < w ∧ offset + w < count - w)) :
    loopBlocks w a value count offset al = [Store.mk (a + offset) w value al] := by
  rw [loopBlocks]
  rw [dif_neg h]

theorem byte_per_byte_step (dst value count offset : Nat) (h : offset < count) :
    inline_memset_byte_per_byte dst value count offset =
      Store.mk (dst + offset) 1 value false ::
        inline_memset_byte_per_byte dst value count (offset + 1) := by
  rw [inline_memset_byte_per_byte]
  rw [dif_pos h]

theorem byte_per_byte_done (dst value count offset : Nat) (h : ¬ offset < count) :
    inline_memset_byte_per_byte dst value count offset = [] := by
  rw [inline_memset_byte_per_byte]
  rw [dif_neg h]

theorem alignedWordLoop_step (w dst value count offset : Nat)
    (h : 0 < w ∧ offset < count - w) :
    alignedWordLoop w dst value count offset =
      (Store.mk (dst + offset) w value true ::
          (alignedWordLoop w dst value count (offset + w)).1,
        (alignedWordLoop w dst value count (offset + w)).2) := by
  rw [alignedWordLoop]
  rw [dif_pos h]

theorem alignedWordLoop_done (w dst value count offset : Nat)
    (h : ¬ (0 < w ∧ offset < count - w)) :
    alignedWordLoop w dst value count offset = ([], offset) := by
  rw [alignedWordLoop]
  rw [dif_neg h]

/-! ### Running traces over memory -/

theorem runTrace_nil (m : Mem) : runTrace [] m = m := rfl

theorem runTrace_cons (s : Store) (tr : List Store) (m : Mem) :
    runTrace (s :: tr) m = runTrace tr (writeStore s m) := rfl

theorem runTrace_append (t1 t2 : List Store) (m : Mem) :
    runTrace (t1 ++ t2) m = runTrace t2 (runTrace t1 m) :=
  List.foldl_append _ _ _ _

theorem writeStore_covered (s : Store) (m : Mem) (x : Nat) (h : covers s x) :
    writeStore s m x = s.val := by
  unfold writeStore
  exact if_pos h

theorem writeStore_not_covered (s : Store) (m : Mem) (x : Nat) (h : ¬ covers s x) :
    writeStore s m x = m x := by
  unfold writeStore
  exact if_neg h

/-- A byte covered by no store of the trace is left unchanged. -/
theorem runTrace_not_covered (tr : List Store) :
    ∀ (m : Mem) (x : Nat), (∀ s ∈ tr, ¬ covers s x) → runTrace tr m x = m x := by
  induction tr with
  | nil => intro m x _; rfl
  | cons s tr ih =>
    intro m x h
    rw [runTrace_cons, ih (writeStore s m) x (fun t ht => h t (List.mem_cons_of_mem s ht))]
    exact writeStore_not_covered s m x (h s (List.mem_cons_self s tr))

/-- A byte covered by some store of a trace whose stores all carry the value
`v` ends up holding `v`. -/
theorem runTrace_covered (tr : List Store) :
    ∀ (m : Mem) (x v : Nat), (∀ s ∈ tr, s.val = v) → (∃ s ∈ tr, covers s x) →
      runTrace tr m x = v := by
  induction tr with
  | nil => intro m x v _ hc; simp at hc
  | cons s tr ih =>
    intro m x v hv hc
    rw [runTrace_cons]
    by_cases h : ∃ t ∈ tr, covers t x
    · exact ih (writeStore s m) x v (fun t ht => hv t (List.mem_cons_of_mem s ht)) h
    · have hsc : covers s x := by
        obtain ⟨t, ht, htc⟩ := hc
        rcases List.mem_cons.mp ht with rfl | htl
        · exact htc
        · exact absurd ⟨t, htl, htc⟩ h
      rw [runTrace_not_covered tr (writeStore s m) x (fun t ht htc => h ⟨t, ht, htc⟩)]
      rw [writeStore_covered s m x hsc]
      exact hv s (List.mem_cons_self s tr)

/-- The main bridge: a trace whose stores stay inside `[lo, hi)`, all carry
`v`, and jointly cover `[lo, hi)` behaves exactly like a fill of that range. -/
theorem runTrace_fill (tr : List Store) (lo hi v : Nat) (m : Mem)
    (h1 : storesIn lo hi v tr) (h2 : coversRange lo hi tr) :
    (∀ x, lo ≤ x → x < hi → runTrace tr m x = v) ∧
    (∀ x, x < lo ∨ hi ≤ x → runTrace tr m x = m x) := by
  constructor
  · intro x hx1 hx2
    exact runTrace_covered tr m x v (fun s hs => (h1 s hs).1) (h2 x hx1 hx2)
  · intro x hx
    refine runTrace_not_covered tr m x (fun s hs hc => ?_)
    obtain ⟨_, hlo, hhi⟩ := h1 s hs
    obtain ⟨hc1, hc2⟩ := hc
    omega

/-! ### Combinators for `storesIn` and `coversRange` -/

theorem storesIn_nil {lo hi v : Nat} : storesIn lo hi v [] := by
  intro s hs; simp at hs

theorem storesIn_append {lo hi v : Nat} {t1 t2 : List Store}
    (h1 : storesIn lo hi v t1) (h2 : storesIn lo hi v t2) :
    storesIn lo hi v (t1 ++ t2) := by
  intro s hs
  rcases List.mem_append.mp hs with h | h
  · exact h1 s h
  · exact h2 s h

theorem storesIn_mono {lo hi lo' hi' v : Nat} {tr : List Store}
    (h : storesIn lo' hi' v tr) (hl : lo ≤ lo') (hh : hi' ≤ hi) :
    storesIn lo hi v tr := by
  intro s hs
  obtain ⟨h1, h2, h3⟩ := h s hs
  exact ⟨h1, by omega, by omega⟩

theorem storesIn_cons {lo hi v a w : Nat} {al : Bool} {tr : List Store}
    (h1 : lo ≤ a) (h2 : a + w ≤ hi) (h3 : storesIn lo hi v tr) :
    storesIn lo hi v (Store.mk a w v al :: tr) := by
  intro s hs
  rcases List.mem_cons.mp hs with rfl | hs'
  · exact ⟨rfl, h1, h2⟩
  · exact h3 s hs'

theorem storesIn_singleton {lo hi v a w : Nat} {al : Bool}
    (h1 : lo ≤ a) (h2 : a + w ≤ hi) :
    storesIn lo hi v [Store.mk a w v al] :=
  storesIn_cons h1 h2 storesIn_nil

theorem covers_mk {a w v x : Nat} {al : Bool} (h1 : a ≤ x) (h2 : x < a + w) :
    covers (Store.mk a w v al) x := ⟨h1, h2⟩

theorem coversRange_empty {lo hi : Nat} {tr : List Store} (h : hi ≤ lo) :
    coversRange lo hi tr := by
  intro x hx1 hx2
  omega

theorem coversRange_append_left {lo hi : Nat} {t1 : List Store} (t2 : List Store)
    (h : coversRange lo hi t1) : coversRange lo hi (t1 ++ t2) := by
  intro x hx1 hx2
  obtain ⟨s, hs, hc⟩ := h x hx1 hx2
  exact ⟨s, List.mem_append.mpr (Or.inl hs), hc⟩

theorem coversRange_append_right {lo hi : Nat} (t1 : List Store) {t2 : List Store}
    (h : coversRange lo hi t2) : coversRange lo hi (t1 ++ t2) := by
  intro x hx1 hx2
  obtain ⟨s, hs, hc⟩ := h x hx1 hx2
  exact ⟨s, List.mem_append.mpr (Or.inr hs), hc⟩

theorem coversRange_union (mid : Nat) {lo hi : Nat} {t1 t2 : List Store}
    (h1 : coversRange lo mid t1) (h2 : coversRange mid hi t2) :
    coversRange lo hi (t1 ++ t2) := by
  intro x hx1 hx2
  by_cases h : x < mid
  · exact coversRange_append_left t2 h1 x hx1 h
  · exact coversRange_append_right t1 h2 x (by omega) hx2

theorem coversRange_mono {lo hi lo' hi' : Nat} {tr : List Store}
    (h : coversRange lo hi tr) (hl : lo ≤ lo') (hh : hi' ≤ hi) :
    coversRange lo' hi' tr := by
  intro x hx1 hx2
  exact h x (by omega) (by omega)

theorem coversRange_singleton (a w v : Nat) (al : Bool) :
    coversRange a (a + w) [Store.mk a w v al] := by
  intro x hx1 hx2
  exact ⟨Store.mk a w v al, List.mem_singleton.mpr rfl, hx1, hx2⟩

/-! ### The byte-per-byte fallback fills `[dst+offset, dst+count)` -/

theorem byte_per_byte_storesIn (dst v count offset : Nat) :
    storesIn (dst + offset) (dst + count) v
      (inline_memset_byte_per_byte dst v count offset) := by
  by_cases h : offset < count
  · rw [byte_per_byte_step dst v count offset h]
    refine storesIn_cons (by omega) (by omega) ?_
    exact storesIn_mono (byte_per_byte_storesIn dst v count (offset + 1)) (by omega) le_rfl
  · rw [byte_per_byte_done dst v count offset h]
    exact storesIn_nil
termination_by count - offset
decreasing_by omega

theorem byte_per_byte_covers (dst v count offset : Nat) :
    coversRange (dst + offset) (dst + count)
      (inline_memset_byte_per_byte dst v count offset) := by
  by_cases h : offset < count
  · rw [byte_per_byte_step dst v count offset h]
    intro x hx1 hx2
    by_cases hx : x < dst + offset + 1
    · exact ⟨Store.mk (dst + offset) 1 v false, List.mem_cons_self _ _,
        covers_mk hx1 hx⟩
    · obtain ⟨s, hs, hc⟩ := byte_per_byte_covers dst v count (offset + 1) x (by omega) hx2
      exact ⟨s, List.mem_cons_of_mem _ hs, hc⟩
  · rw [byte_per_byte_done dst v count offset h]
    exact coversRange_empty (by omega)
termination_by count - offset
decreasing_by omega

theorem byte_per_byte_unaligned (dst v count offset : Nat) :
    ∀ s ∈ inline_memset_byte_per_byte dst v count offset, s.aligned = false := by
  by_cases h : offset < count
  · rw [byte_per_byte_step dst v count offset h]
    intro s hs
    rcases List.mem_cons.mp hs with rfl | hs'
    · rfl
    · exact byte_per_byte_unaligned dst v count (offset + 1) s hs'
  · rw [byte_per_byte_done dst v count offset h]
    intro s hs
    simp at hs
termination_by count - offset
decreasing_by omega

/-! ### The block loop of `loop_and_tail` -/

theorem loopBlocks_storesIn (w a v count offset : Nat) (al : Bool)
    (h : offset + w ≤ count) :
    storesIn (a + offset) (a + count) v (loopBlocks w a v count offset al) := by
  by_cases hg : 0 < w ∧ offset + w < count - w
  · rw [loopBlocks_step w a v count offset al hg]
    refine storesIn_cons (by omega) (by omega) ?_
    exact storesIn_mono (loopBlocks_storesIn w a v count (offset + w) al (by omega))
      (by omega) le_rfl
  · rw [loopBlocks_last w a v count offset al hg]
    exact storesIn_singleton (by omega) (by omega)
termination_by count - offset
decreasing_by omega

theorem loopBlocks_covers (w a v count offset : Nat) (al : Bool) (hw : 0 < w) :
    coversRange (a + offset) (a + (count - w)) (loopBlocks w a v count offset al) := by
  by_cases hg : 0 < w ∧ offset + w < count - w
  · rw [loopBlocks_step w a v count offset al hg]
    intro x hx1 hx2
    by_cases hx : x < a + offset + w
    · exact ⟨Store.mk (a + offset) w v al, List.mem_cons_self _ _, covers_mk hx1 hx⟩
    · obtain ⟨s, hs, hc⟩ := loopBlocks_covers w a v count (offset + w) al hw x (by omega) hx2
      exact ⟨s, List.mem_cons_of_mem _ hs, hc⟩
  · rw [loopBlocks_last w a v count offset al hg]
    intro x hx1 hx2
    exact ⟨Store.mk (a + offset) w v al, List.mem_singleton.mpr rfl,
      covers_mk hx1 (by omega)⟩
termination_by count - offset
decreasing_by omega

/-- The loop-plus-tail shape used by both `loop_and_tail` and
`BzeroCacheLine::loop_and_tail` keeps every store inside `[a, a+count)`. -/
theorem loopTail_storesIn (w a v count : Nat) (al : Bool) (hc : w ≤ count) :
    storesIn a (a + count) v
      (loopBlocks w a v count 0 al ++ MemsetTail w a v count) := by
  refine storesIn_append ?_ ?_
  · exact storesIn_mono (loopBlocks_storesIn w a v count 0 al (by omega)) (by omega) le_rfl
  · unfold MemsetTail
    exact storesIn_singleton (by omega) (by omega)

/-- ... and jointly covers `[a, a+count)`. -/
theorem loopTail_covers (w a v count : Nat) (al : Bool) (hw : 0 < w)
    (hc : w ≤ count) :
    coversRange a (a + count)
      (loopBlocks w a v count 0 al ++ MemsetTail w a v count) := by
  refine coversRange_union (a + (count - w)) ?_ ?_
  · exact coversRange_mono (loopBlocks_covers w a v count 0 al hw) (by omega) le_rfl
  · unfold MemsetTail
    exact coversRange_mono (coversRange_singleton (a + count - w) w v false)
      (by omega) (by omega)

/-! ### The word loop of the aligned-access strategies -/

theorem alignedWordLoop_storesIn (w dst v count offset : Nat) :
    storesIn (dst + offset) (dst + count) v (alignedWordLoop w dst v count offset).1 := by
  by_cases hg : 0 < w ∧ offset < count - w
  · rw [alignedWordLoop_step w dst v count offset hg]
    refine storesIn_cons (by omega) (by omega) ?_
    exact storesIn_mono (alignedWordLoop_storesIn w dst v count (offset + w))
      (by omega) le_rfl
  · rw [alignedWordLoop_done w dst v count offset hg]
    exact storesIn_nil
termination_by count - offset
decreasing_by omega

theorem alignedWordLoop_covers (w dst v count offset : Nat) :
    coversRange (dst + offset) (dst + (alignedWordLoop w dst v count offset).2)
      (alignedWordLoop w dst v count offset).1 := by
  by_cases hg : 0 < w ∧ offset < count - w
  · rw [alignedWordLoop_step w dst v count offset hg]
    intro x hx1 hx2
    by_cases hx : x < dst + offset + w
    · exact ⟨Store.mk (dst + offset) w v true, List.mem_cons_self _ _, covers_mk hx1 hx⟩
    · obtain ⟨s, hs, hc⟩ := alignedWordLoop_covers w dst v count (offset + w) x (by omega) hx2
      exact ⟨s, List.mem_cons_of_mem _ hs, hc⟩
  · rw [alignedWordLoop_done w dst v count offset hg]
    exact coversRange_empty (by omega)
termination_by count - offset
decreasing_by omega

theorem alignedWordLoop_final_ge (w dst v count offset : Nat) :
    offset ≤ (alignedWordLoop w dst v count offset).2 := by
  by_cases hg : 0 < w ∧ offset < count - w
  · rw [alignedWordLoop_step w dst v count offset hg]
    have := alignedWordLoop_final_ge w dst v count (offset + w)
    omega
  · rw [alignedWordLoop_done w dst v count offset hg]
termination_by count - offset
decreasing_by omega

/-- Loop invariant of the aligned-access strategies: starting from an offset
that makes `dst + offset` word-aligned and advancing by the word size, every
store of the word loop is word-aligned. -/
theorem alignedWordLoop_aligned (w dst v count offset : Nat)
    (h : (dst + offset) % w = 0) :
    ∀ s ∈ (alignedWordLoop w dst v count offset).1, s.addr % w = 0 := by
  by_cases hg : 0 < w ∧ offset < count - w
  · rw [alignedWordLoop_step w dst v count offset hg]
    intro s hs
    rcases List.mem_cons.mp hs with rfl | hs'
    · exact h
    · refine alignedWordLoop_aligned w dst v count (offset + w) ?_ s hs'
      have heq : dst + (offset + w) = (dst + offset) + w := by omega
      rw [heq, Nat.add_mod_right]
      exact h
  · rw [alignedWordLoop_done w dst v count offset hg]
    intro s hs
    simp at hs
termination_by count - offset
decreasing_by omega

/-! ### Alignment arithmetic -/

theorem distance_to_align_up_lt (alignment a : Nat) (h : 0 < alignment) :
    distance_to_align_up alignment a < alignment :=
  Nat.mod_lt _ h

theorem add_distance_to_align_up (alignment a : Nat) (h : 0 < alignment) :
    (a + distance_to_align_up alignment a) % alignment = 0 := by
  unfold distance_to_align_up
  rcases Nat.eq_zero_or_pos (a % alignment) with h0 | h0
  · rw [h0, Nat.sub_zero, Nat.mod_self, Nat.add_zero]
    exact h0
  · have hlt : a % alignment < alignment := Nat.mod_lt _ h
    rw [Nat.mod_eq_of_lt (by omega : alignment - a % alignment < alignment)]
    have hdm := Nat.div_add_mod a alignment
    have heq : a + (alignment - a % alignment) = alignment * (a / alignment + 1) := by
      rw [Nat.mul_add, Nat.mul_one]
      omega
    rw [heq, Nat.mul_mod_right]

/-! ### Head+tail stores fill their range -/

theorem headTail_storesIn (w a v count : Nat) (hc : w ≤ count) :
    storesIn a (a + count) v (MemsetHeadTail w a v count) := by
  unfold MemsetHeadTail MemsetBlock MemsetTail
  refine storesIn_append ?_ ?_
  · exact storesIn_singleton le_rfl (by omega)
  · exact storesIn_singleton (by omega) (by omega)

theorem headTail_covers (w a v count : Nat) (hc1 : w ≤ count) (hc2 : count ≤ 2 * w) :
    coversRange a (a + count) (MemsetHeadTail w a v count) := by
  unfold MemsetHeadTail MemsetBlock MemsetTail
  refine coversRange_union (a + w) ?_ ?_
  · exact coversRange_mono (coversRange_singleton a w v false) le_rfl le_rfl
  · exact coversRange_mono (coversRange_singleton (a + count - w) w v false)
      (by omega) (by omega)

/-! ### Each dispatcher emits an in-bounds, covering trace -/

theorem x86_good (dst v count : Nat) :
    storesIn dst (dst + count) v (inline_memset_x86 dst v count) ∧
    coversRange dst (dst + count) (inline_memset_x86 dst v count) := by
  unfold inline_memset_x86
  by_cases h0 : count = 0
  · rw [if_pos h0]
    exact ⟨storesIn_nil, coversRange_empty (by omega)⟩
  rw [if_neg h0]
  by_cases h1 : count = 1
  · rw [if_pos h1]
    unfold MemsetBlock
    exact ⟨storesIn_singleton le_rfl (by omega),
      coversRange_mono (coversRange_singleton dst 1 v false) le_rfl (by omega)⟩
  rw [if_neg h1]
  by_cases h2 : count = 2
  · rw [if_pos h2]
    unfold MemsetBlock
    exact ⟨storesIn_singleton le_rfl (by omega),
      coversRange_mono (coversRange_singleton dst 2 v false) le_rfl (by omega)⟩
  rw [if_neg h2]
  by_cases h3 : count = 3
  · rw [if_pos h3]
    unfold MemsetSequence_16_8
    constructor
    · refine storesIn_cons le_rfl (by omega) ?_
      exact storesIn_singleton (by omega) (by omega)
    · intro x hx1 hx2
      by_cases hx : x < dst + 2
      · exact ⟨Store.mk dst 2 v false, List.mem_cons_self _ _, covers_mk hx1 hx⟩
      · refine ⟨Store.mk (dst + 2) 1 v false, ?_, covers_mk (by omega) (by omega)⟩
        exact List.mem_cons_of_mem _ (List.mem_singleton.mpr rfl)
  rw [if_neg h3]
  by_cases h8 : count ≤ 8
  · rw [if_pos h8]
    exact ⟨headTail_storesIn 4 dst v count (by omega),
      headTail_covers 4 dst v count (by omega) (by omega)⟩
  rw [if_neg h8]
  by_cases h16 : count ≤ 16
  · rw [if_pos h16]
    exact ⟨headTail_storesIn 8 dst v count (by omega),
      headTail_covers 8 dst v count (by omega) (by omega)⟩
  rw [if_neg h16]
  by_cases h32 : count ≤ 32
  · rw [if_pos h32]
    exact ⟨headTail_storesIn 16 dst v count (by omega),
      headTail_covers 16 dst v count (by omega) (by omega)⟩
  rw [if_neg h32]
  by_cases h64 : count ≤ 64
  · rw [if_pos h64]
    exact ⟨headTail_storesIn 32 dst v count (by omega),
      headTail_covers 32 dst v count (by omega) (by omega)⟩
  rw [if_neg h64]
  by_cases h128 : count ≤ 128
  · rw [if_pos h128]
    exact ⟨headTail_storesIn 64 dst v count (by omega),
      headTail_covers 64 dst v count (by omega) (by omega)⟩
  rw [if_neg h128]
  have hd := distance_to_align_up_lt 32 dst (by omega)
  unfold align_to_next_boundary loop_and_tail MemsetBlock
  constructor
  · refine storesIn_append ?_ ?_
    · exact storesIn_singleton le_rfl (by omega)
    · exact storesIn_mono
        (loopTail_storesIn 32 (dst + distance_to_align_up 32 dst) v
          (count - distance_to_align_up 32 dst) false (by omega))
        (by omega) (by omega)
  · refine coversRange_union (dst + distance_to_align_up 32 dst) ?_ ?_
    · exact coversRange_mono (coversRange_singleton dst 32 v false) le_rfl (by omega)
    · exact coversRange_mono
        (loopTail_covers 32 (dst + distance_to_align_up 32 dst) v
          (count - distance_to_align_up 32 dst) false (by omega) (by omega))
        le_rfl (by omega)

theorem aarch64_good (hz : Bool) (dst v count : Nat) :
    storesIn dst (dst + count) v (inline_memset_aarch64 hz dst v count) ∧
    coversRange dst (dst + count) (inline_memset_aarch64 hz dst v count) := by
  unfold inline_memset_aarch64
  by_cases h0 : count = 0
  · rw [if_pos h0]
    exact ⟨storesIn_nil, coversRange_empty (by omega)⟩
  rw [if_neg h0]
  by_cases h3 : count ≤ 3
  · rw [if_pos h3]
    by_cases h1 : 1 < count
    · rw [if_pos h1]
      unfold MemsetBlock MemsetTail
      constructor
      · refine storesIn_append ?_ ?_
        · exact storesIn_singleton le_rfl (by omega)
        · exact storesIn_singleton (by omega) (by omega)
      · refine coversRange_union (dst + 1) ?_ ?_
        · exact coversRange_mono (coversRange_singleton dst 1 v false) le_rfl le_rfl
        · exact coversRange_mono (coversRange_singleton (dst + count - 2) 2 v false)
            (by omega) (by omega)
    · rw [if_neg h1]
      unfold MemsetBlock
      constructor
      · refine storesIn_append ?_ storesIn_nil
        exact storesIn_singleton le_rfl (by omega)
      · refine coversRange_append_left _ ?_
        exact coversRange_mono (coversRange_singleton dst 1 v false) le_rfl (by omega)
  rw [if_neg h3]
  by_cases h8 : count ≤ 8
  · rw [if_pos h8]
    exact ⟨headTail_storesIn 4 dst v count (by omega),
      headTail_covers 4 dst v count (by omega) (by omega)⟩
  rw [if_neg h8]
  by_cases h16 : count ≤ 16
  · rw [if_pos h16]
    exact ⟨headTail_storesIn 8 dst v count (by omega),
      headTail_covers 8 dst v count (by omega) (by omega)⟩
  rw [if_neg h16]
  by_cases h32 : count ≤ 32
  · rw [if_pos h32]
    exact ⟨headTail_storesIn 16 dst v count (by omega),
      headTail_covers 16 dst v count (by omega) (by omega)⟩
  rw [if_neg h32]
  by_cases h96 : count ≤ 32 + 64
  · rw [if_pos h96]
    by_cases h64 : count ≤ 64
    · rw [if_pos h64]
      unfold MemsetBlock MemsetTail
      constructor
      · refine storesIn_append ?_ ?_
        · exact storesIn_singleton le_rfl (by omega)
        · exact storesIn_singleton (by omega) (by omega)
      · refine coversRange_union (dst + 32) ?_ ?_
        · exact coversRange_mono (coversRange_singleton dst 32 v false) le_rfl le_rfl
        · exact coversRange_mono (coversRange_singleton (dst + count - 32) 32 v false)
            (by omega) (by omega)
    · rw [if_neg h64]
      unfold MemsetBlock MemsetTail
      constructor
      · refine storesIn_append ?_ (storesIn_append ?_ ?_)
        · exact storesIn_singleton le_rfl (by omega)
        · exact storesIn_singleton (by omega) (by omega)
        · exact storesIn_singleton (by omega) (by omega)
      · refine coversRange_union (dst + 32) ?_
          (coversRange_union (dst + 64) ?_ ?_)
        · exact coversRange_mono (coversRange_singleton dst 32 v false) le_rfl le_rfl
        · exact coversRange_mono (coversRange_singleton (dst + 32) 32 v false)
            (by omega) (by omega)
        · exact coversRange_mono (coversRange_singleton (dst + count - 32) 32 v false)
            (by omega) (by omega)
  rw [if_neg h96]
  by_cases hzva : aarch64_zva_condition hz v count = true
  · rw [if_pos hzva]
    have hcond : (448 ≤ count ∧ v = 0) ∧ hz = true := by
      simpa [aarch64_zva_condition, Bool.and_eq_true, decide_eq_true_eq,
        beq_iff_eq] using hzva
    obtain ⟨⟨hcnt, hv0⟩, -⟩ := hcond
    subst hv0
    have hd := distance_to_align_up_lt 64 dst (by omega)
    unfold align_to_next_boundary BzeroCacheLine_loop_and_tail MemsetBlock
    constructor
    · refine storesIn_append ?_ ?_
      · exact storesIn_singleton le_rfl (by omega)
      · exact storesIn_mono
          (loopTail_storesIn 64 (dst + distance_to_align_up 64 dst) 0
            (count - distance_to_align_up 64 dst) true (by omega))
          (by omega) (by omega)
    · refine coversRange_union (dst + distance_to_align_up 64 dst) ?_ ?_
      · exact coversRange_mono (coversRange_singleton dst 64 0 false) le_rfl (by omega)
      · exact coversRange_mono
          (loopTail_covers 64 (dst + distance_to_align_up 64 dst) 0
            (count - distance_to_align_up 64 dst) true (by omega) (by omega))
          le_rfl (by omega)
  · rw [if_neg hzva]
    have hd := distance_to_align_up_lt 16 dst (by omega)
    unfold align_to_next_boundary loop_and_tail MemsetBlock
    constructor
    · refine storesIn_append ?_ ?_
      · exact storesIn_singleton le_rfl (by omega)
      · exact storesIn_mono
          (loopTail_storesIn 64 (dst + distance_to_align_up 16 dst) v
            (count - distance_to_align_up 16 dst) false (by omega))
          (by omega) (by omega)
    · refine coversRange_union (dst + distance_to_align_up 16 dst) ?_ ?_
      · exact coversRange_mono (coversRange_singleton dst 16 v false) le_rfl (by omega)
      · exact coversRange_mono
          (loopTail_covers 64 (dst + distance_to_align_up 16 dst) v
            (count - distance_to_align_up 16 dst) false (by omega) (by omega))
          le_rfl (by omega)

/-- The three-segment shape shared by both aligned-access strategies. -/
theorem alignedAccess_good (w dst v count : Nat) (hw : 0 < w)
    (hcount : 2 * w < count) :
    storesIn dst (dst + count) v
      (inline_memset_byte_per_byte dst v (distance_to_align_up w dst) 0 ++
        (alignedWordLoop w dst v count (distance_to_align_up w dst)).1 ++
        inline_memset_byte_per_byte dst v count
          (alignedWordLoop w dst v count (distance_to_align_up w dst)).2) ∧
    coversRange dst (dst + count)
      (inline_memset_byte_per_byte dst v (distance_to_align_up w dst) 0 ++
        (alignedWordLoop w dst v count (distance_to_align_up w dst)).1 ++
        inline_memset_byte_per_byte dst v count
          (alignedWordLoop w dst v count (distance_to_align_up w dst)).2) := by
  have hd := distance_to_align_up_lt w dst hw
  have hF := alignedWordLoop_final_ge w dst v count (distance_to_align_up w dst)
  constructor
  · refine storesIn_append (storesIn_append ?_ ?_) ?_
    · exact storesIn_mono
        (byte_per_byte_storesIn dst v (distance_to_align_up w dst) 0)
        (by omega) (by omega)
    · exact storesIn_mono
        (alignedWordLoop_storesIn w dst v count (distance_to_align_up w dst))
        (by omega) le_rfl
    · exact storesIn_mono
        (byte_per_byte_storesIn dst v count
          (alignedWordLoop w dst v count (distance_to_align_up w dst)).2)
        (by omega) le_rfl
  · refine coversRange_union
      (dst + (alignedWordLoop w dst v count (distance_to_align_up w dst)).2)
      (coversRange_union (dst + distance_to_align_up w dst) ?_ ?_) ?_
    · exact coversRange_mono
        (byte_per_byte_covers dst v (distance_to_align_up w dst) 0)
        (by omega) le_rfl
    · exact alignedWordLoop_covers w dst v count (distance_to_align_up w dst)
    · exact byte_per_byte_covers dst v count
        (alignedWordLoop w dst v count (distance_to_align_up w dst)).2

theorem aligned32_good (dst v count : Nat) :
    storesIn dst (dst + count) v (inline_memset_aligned_access_32bit dst v count) ∧
    coversRange dst (dst + count) (inline_memset_aligned_access_32bit dst v count) := by
  unfold inline_memset_aligned_access_32bit
  by_cases h : count ≤ 2 * 4
  · rw [if_pos h]
    exact ⟨storesIn_mono (byte_per_byte_storesIn dst v count 0) (by omega) le_rfl,
      coversRange_mono (byte_per_byte_covers dst v count 0) (by omega) le_rfl⟩
  · rw [if_neg h]
    exact alignedAccess_good 4 dst v count (by omega) (by omega)

theorem aligned64_good (dst v count : Nat) :
    storesIn dst (dst + count) v (inline_memset_aligned_access_64bit dst v count) ∧
    coversRange dst (dst + count) (inline_memset_aligned_access_64bit dst v count) := by
  unfold inline_memset_aligned_access_64bit
  by_cases h : count ≤ 2 * 8
  · rw [if_pos h]
    exact ⟨storesIn_mono (byte_per_byte_storesIn dst v count 0) (by omega) le_rfl,
      coversRange_mono (byte_per_byte_covers dst v count 0) (by omega) le_rfl⟩
  · rw [if_neg h]
    exact alignedAccess_good 8 dst v count (by omega) (by omega)

theorem byte_per_byte_good (dst v count : Nat) :
    storesIn dst (dst + count) v (inline_memset_byte_per_byte dst v count 0) ∧
    coversRange dst (dst + count) (inline_memset_byte_per_byte dst v count 0) :=
  ⟨storesIn_mono (byte_per_byte_storesIn dst v count 0) (by omega) le_rfl,
    coversRange_mono (byte_per_byte_covers dst v count 0) (by omega) le_rfl⟩

/-- Whichever architecture is compiled in, the emitted trace stays inside
`[dst, dst+count)`, writes only `value`, and covers the whole range. -/
theorem inline_memset_good (arch : Arch) (hz : Bool) (dst v count : Nat) :
    storesIn dst (dst + count) v (inline_memset arch hz dst v count) ∧
    coversRange dst (dst + count) (inline_memset arch hz dst v count) := by
  cases arch with
  | x86 => exact x86_good dst v count
  | aarch64 => exact aarch64_good hz dst v count
  | riscv64 => exact aligned64_good dst v count
  | riscv32 => exact aligned32_good dst v count
  | generic => exact byte_per_byte_good dst v count

/-- Closed form of the aligned word loop: the trace is `n` word stores at
offsets `offset, offset + w, ..., offset + w*(n-1)`, the final offset is
`offset + w*n`, and at exit at most `w` bytes remain before `count`. -/
theorem alignedWordLoop_closed_form (w dst v count offset : Nat) (hw : 0 < w) :
    ∃ n, (alignedWordLoop w dst v count offset).1 =
        (List.range n).map (fun k => Store.mk (dst + (offset + w * k)) w v true) ∧
      (alignedWordLoop w dst v count offset).2 = offset + w * n ∧
      count - w ≤ offset + w * n := by
  by_cases hg : 0 < w ∧ offset < count - w
  · obtain ⟨n, e1, e2, e3⟩ := alignedWordLoop_closed_form w dst v count (offset + w) hw
    have harith : ∀ k, offset + w + w * k = offset + w * (k + 1) := by
      intro k
      have : w * (k + 1) = w * k + w := by ring
      omega
    refine ⟨n + 1, ?_, ?_, ?_⟩
    · rw [alignedWordLoop_step w dst v count offset hg]
      show Store.mk (dst + offset) w v true ::
          (alignedWordLoop w dst v count (offset + w)).1 = _
      rw [e1, List.range_succ_eq_map, List.map_cons, List.map_map]
      congr 1
      congr 1
      funext k
      show Store.mk (dst + (offset + w + w * k)) w v true =
        Store.mk (dst + (offset + w * (k + 1))) w v true
      exact congrArg (fun t => Store.mk (dst + t) w v true) (harith k)
    · rw [alignedWordLoop_step w dst v count offset hg]
      show (alignedWordLoop w dst v count (offset + w)).2 = _
      rw [e2]
      exact harith n
    · have := harith n
      omega
  · refine ⟨0, ?_, ?_, ?_⟩
    · rw [alignedWordLoop_done w dst v count offset hg]
      simp
    · rw [alignedWordLoop_done w dst v count offset hg]
      simp
    · simp only [Nat.mul_zero, Nat.add_zero]
      omega
termination_by count - offset
decreasing_by omega

/-! ### The claims -/

/-- C1: for every call `fill(dst, value, count)` on any architecture variant,
after `inline_memset` returns, every byte at offsets `0..count-1` from `dst`
equals `value`, and every byte outside `[dst, dst+count)` is unchanged. -/
theorem inline_memset_fills_range (arch : Arch) (hz : Bool)
    (dst value count : Nat) (m : Mem) (i x : Nat) :
    (i < count →
      runTrace (inline_memset arch hz dst value count) m (dst + i) = value) ∧
    ((x < dst ∨ dst + count ≤ x) →
      runTrace (inline_memset arch hz dst value count) m x = m x) := by
  obtain ⟨h1, h2⟩ := inline_memset_good arch hz dst value count
  obtain ⟨hin, hout⟩ := runTrace_fill _ dst (dst + count) value m h1 h2
  exact ⟨fun hi => hin (dst + i) (by omega) (by omega), fun hx => hout x hx⟩

/-- Witness for C1 at the x86 variant, `dst = 10`, `value = 7`, `count = 5`,
constant memory `3`, inside offset `2`, outside address `15`. -/
theorem inline_memset_fills_range_witness :
    (2 < 5 →
      runTrace (inline_memset Arch.x86 true 10 7 5) (fun _ => 3) (10 + 2) = 7) ∧
    ((15 < 10 ∨ 10 + 5 ≤ 15) →
      runTrace (inline_memset Arch.x86 true 10 7 5) (fun _ => 3) 15 = 3) :=
  inline_memset_fills_range Arch.x86 true 10 7 5 (fun _ => 3) 2 15

/-- Helper for the `count > 128` tier of the x86 dispatcher. -/
theorem x86_large_tier (dst v count : Nat) (h : 128 < count) :
    inline_memset_x86 dst v count =
      MemsetBlock 32 dst v ++
        loop_and_tail 32 (dst + distance_to_align_up 32 dst) v
          (count - distance_to_align_up 32 dst) := by
  unfold inline_memset_x86
  split_ifs <;> first | omega | rfl

/-- C2: `inline_memset_x86` selects its strategy purely by `count`, following
the tier table: 0 is a no-op, 1 a byte store, 2 a 16-bit store, 3 a 16-bit
then an 8-bit store, 4-8 / 9-16 / 17-32 / 33-64 / 65-128 head+tail stores of
widths 4 / 8 / 16 / 32 / 64 bytes, and for `count > 128` one unaligned 256-bit
head store, alignment of the pointer up to a 32-byte boundary, then the
256-bit-wide store loop with overlapping tail. -/
theorem inline_memset_x86_tier_table (dst v count : Nat) :
    (count = 0 → inline_memset_x86 dst v count = []) ∧
    (count = 1 → inline_memset_x86 dst v count = [Store.mk dst 1 v false]) ∧
    (count = 2 → inline_memset_x86 dst v count = [Store.mk dst 2 v false]) ∧
    (count = 3 → inline_memset_x86 dst v count =
      [Store.mk dst 2 v false, Store.mk (dst + 2) 1 v false]) ∧
    (4 ≤ count → count ≤ 8 →
      inline_memset_x86 dst v count = MemsetHeadTail 4 dst v count) ∧
    (9 ≤ count → count ≤ 16 →
      inline_memset_x86 dst v count = MemsetHeadTail 8 dst v count) ∧
    (17 ≤ count → count ≤ 32 →
      inline_memset_x86 dst v count = MemsetHeadTail 16 dst v count) ∧
    (33 ≤ count → count ≤ 64 →
      inline_memset_x86 dst v count = MemsetHeadTail 32 dst v count) ∧
    (65 ≤ count → count ≤ 128 →
      inline_memset_x86 dst v count = MemsetHeadTail 64 dst v count) ∧
    (128 < count → inline_memset_x86 dst v count =
      MemsetBlock 32 dst v ++
        loop_and_tail 32 (dst + distance_to_align_up 32 dst) v
          (count - distance_to_align_up 32 dst)) := by
  refine ⟨?_, ?_, ?_, ?_, ?_, ?_, ?_, ?_, ?_, ?_⟩
  · intro h
    subst h
    rfl
  · intro h
    subst h
    rfl
  · intro h
    subst h
    rfl
  · intro h
    subst h
    rfl
  · intro ha hb
    unfold inline_memset_x86
    split_ifs <;> first | omega | rfl
  · intro ha hb
    unfold inline_memset_x86
    split_ifs <;> first | omega | rfl
  · intro ha hb
    unfold inline_memset_x86
    split_ifs <;> first | omega | rfl
  · intro ha hb
    unfold inline_memset_x86
    split_ifs <;> first | omega | rfl
  · intro ha hb
    unfold inline_memset_x86
    split_ifs <;> first | omega | rfl
  · exact x86_large_tier dst v count

/-- Witness for C2 at `dst = 3`, `v = 9`, `count = 20` (the 128-bit tier). -/
theorem inline_memset_x86_tier_table_witness :
    (20 = 0 → inline_memset_x86 3 9 20 = []) ∧
    (20 = 1 → inline_memset_x86 3 9 20 = [Store.mk 3 1 9 false]) ∧
    (20 = 2 → inline_memset_x86 3 9 20 = [Store.mk 3 2 9 false]) ∧
    (20 = 3 → inline_memset_x86 3 9 20 =
      [Store.mk 3 2 9 false, Store.mk (3 + 2) 1 9 false]) ∧
    (4 ≤ 20 → 20 ≤ 8 → inline_memset_x86 3 9 20 = MemsetHeadTail 4 3 9 20) ∧
    (9 ≤ 20 → 20 ≤ 16 → inline_memset_x86 3 9 20 = MemsetHeadTail 8 3 9 20) ∧
    (17 ≤ 20 → 20 ≤ 32 → inline_memset_x86 3 9 20 = MemsetHeadTail 16 3 9 20) ∧
    (33 ≤ 20 → 20 ≤ 64 → inline_memset_x86 3 9 20 = MemsetHeadTail 32 3 9 20) ∧
    (65 ≤ 20 → 20 ≤ 128 → inline_memset_x86 3 9 20 = MemsetHeadTail 64 3 9 20) ∧
    (128 < 20 → inline_memset_x86 3 9 20 =
      MemsetBlock 32 3 9 ++
        loop_and_tail 32 (3 + distance_to_align_up 32 3) 9
          (20 - distance_to_align_up 32 3)) :=
  inline_memset_x86_tier_table 3 9 20

/-- C3: on AArch64 with `value = 0` and `count ≥ 448`, memory after
`inline_memset_aarch64` is byte-identical whether the capability-gated
cache-line-zeroing path (capability present) or the generic path (capability
absent) runs; and the dedicated path's branch condition holds exactly when
`count ≥ 448`, the fill value is zero, and the capability query returns
true. -/
theorem inline_memset_aarch64_bzero_path_equiv (dst count x : Nat) (m : Mem)
    (hz : Bool) (value : Nat) (h448 : 448 ≤ count) :
    runTrace (inline_memset_aarch64 true dst 0 count) m x =
      runTrace (inline_memset_aarch64 false dst 0 count) m x ∧
    (aarch64_zva_condition hz value count = true ↔
      (448 ≤ count ∧ value = 0 ∧ hz = true)) := by
  constructor
  · obtain ⟨s1, c1⟩ := aarch64_good true dst 0 count
    obtain ⟨s2, c2⟩ := aarch64_good false dst 0 count
    obtain ⟨in1, out1⟩ := runTrace_fill _ dst (dst + count) 0 m s1 c1
    obtain ⟨in2, out2⟩ := runTrace_fill _ dst (dst + count) 0 m s2 c2
    by_cases hx : dst ≤ x ∧ x < dst + count
    · rw [in1 x hx.1 hx.2, in2 x hx.1 hx.2]
    · rw [out1 x (by omega), out2 x (by omega)]
  · simp [aarch64_zva_condition, Bool.and_eq_true, decide_eq_true_eq,
      beq_iff_eq, and_assoc]

/-- Witness for C3 at `dst = 3`, `count = 448`, address `5`, constant
memory `9`, capability flag `false`, value `1`. -/
theorem inline_memset_aarch64_bzero_path_equiv_witness :
    runTrace (inline_memset_aarch64 true 3 0 448) (fun _ => 9) 5 =
      runTrace (inline_memset_aarch64 false 3 0 448) (fun _ => 9) 5 ∧
    (aarch64_zva_condition false 1 448 = true ↔
      (448 ≤ 448 ∧ 1 = 0 ∧ false = true)) :=
  inline_memset_aarch64_bzero_path_equiv 3 448 5 (fun _ => 9) false 1 (by decide)

/-- C4: the aligned-access strategies delegate to the byte-per-byte fallback
when `count ≤ 2 * wordSize`; otherwise the trace is exactly a byte-per-byte
head of length `distance_to_align_up(dst)`, then word-sized aligned stores of
the splatted value advancing by `wordSize` from that offset, then a
byte-per-byte tail starting at the loop's final offset (which leaves at most
one word before `count`). -/
theorem inline_memset_aligned_access_structure (dst v count : Nat) :
    (count ≤ 2 * 4 → inline_memset_aligned_access_32bit dst v count =
      inline_memset_byte_per_byte dst v count 0) ∧
    (2 * 4 < count → ∃ n,
      inline_memset_aligned_access_32bit dst v count =
        inline_memset_byte_per_byte dst v (distance_to_align_up 4 dst) 0 ++
          (List.range n).map
            (fun k => Store.mk (dst + (distance_to_align_up 4 dst + 4 * k)) 4 v true) ++
          inline_memset_byte_per_byte dst v count
            (distance_to_align_up 4 dst + 4 * n) ∧
      count - 4 ≤ distance_to_align_up 4 dst + 4 * n) ∧
    (count ≤ 2 * 8 → inline_memset_aligned_access_64bit dst v count =
      inline_memset_byte_per_byte dst v count 0) ∧
    (2 * 8 < count → ∃ n,
      inline_memset_aligned_access_64bit dst v count =
        inline_memset_byte_per_byte dst v (distance_to_align_up 8 dst) 0 ++
          (List.range n).map
            (fun k => Store.mk (dst + (distance_to_align_up 8 dst + 8 * k)) 8 v true) ++
          inline_memset_byte_per_byte dst v count
            (distance_to_align_up 8 dst + 8 * n) ∧
      count - 8 ≤ distance_to_align_up 8 dst + 8 * n) := by
  refine ⟨?_, ?_, ?_, ?_⟩
  · intro h
    unfold inline_memset_aligned_access_32bit
    rw [if_pos h]
  · intro h
    obtain ⟨n, e1, e2, e3⟩ := alignedWordLoop_closed_form 4 dst v count
      (distance_to_align_up 4 dst) (by omega)
    refine ⟨n, ?_, e3⟩
    unfold inline_memset_aligned_access_32bit
    rw [if_neg (by omega)]
    show inline_memset_byte_per_byte dst v (distance_to_align_up 4 dst) 0 ++
        (alignedWordLoop 4 dst v count (distance_to_align_up 4 dst)).1 ++
        inline_memset_byte_per_byte dst v count
          (alignedWordLoop 4 dst v count (distance_to_align_up 4 dst)).2 = _
    rw [e1, e2]
  · intro h
    unfold inline_memset_aligned_access_64bit
    rw [if_pos h]
  · intro h
    obtain ⟨n, e1, e2, e3⟩ := alignedWordLoop_closed_form 8 dst v count
      (distance_to_align_up 8 dst) (by omega)
    refine ⟨n, ?_, e3⟩
    unfold inline_memset_aligned_access_64bit
    rw [if_neg (by omega)]
    show inline_memset_byte_per_byte dst v (distance_to_align_up 8 dst) 0 ++
        (alignedWordLoop 8 dst v count (distance_to_align_up 8 dst)).1 ++
        inline_memset_byte_per_byte dst v count
          (alignedWordLoop 8 dst v count (distance_to_align_up 8 dst)).2 = _
    rw [e1, e2]

/-- Witness for C4 at `dst = 6`, `v = 9`, `count = 13`. -/
theorem inline_memset_aligned_access_structure_witness :
    (13 ≤ 2 * 4 → inline_memset_aligned_access_32bit 6 9 13 =
      inline_memset_byte_per_byte 6 9 13 0) ∧
    (2 * 4 < 13 → ∃ n,
      inline_memset_aligned_access_32bit 6 9 13 =
        inline_memset_byte_per_byte 6 9 (distance_to_align_up 4 6) 0 ++
          (List.range n).map
            (fun k => Store.mk (6 + (distance_to_align_up 4 6 + 4 * k)) 4 9 true) ++
          inline_memset_byte_per_byte 6 9 13 (distance_to_align_up 4 6 + 4 * n) ∧
      13 - 4 ≤ distance_to_align_up 4 6 + 4 * n) ∧
    (13 ≤ 2 * 8 → inline_memset_aligned_access_64bit 6 9 13 =
      inline_memset_byte_per_byte 6 9 13 0) ∧
    (2 * 8 < 13 → ∃ n,
      inline_memset_aligned_access_64bit 6 9 13 =
        inline_memset_byte_per_byte 6 9 (distance_to_align_up 8 6) 0 ++
          (List.range n).map
            (fun k => Store.mk (6 + (distance_to_align_up 8 6 + 8 * k)) 8 9 true) ++
          inline_memset_byte_per_byte 6 9 13 (distance_to_align_up 8 6 + 8 * n) ∧
      13 - 8 ≤ distance_to_align_up 8 6 + 8 * n) :=
  inline_memset_aligned_access_structure 6 9 13

/-- C5: in the aligned-access strategies, when `count > 2 * wordSize`, the
subtraction `count - wordSize` cannot underflow (`wordSize ≤ count`), and
every store of the emitted trace — in particular every word store of the
middle loop — writes entirely within `[dst, dst + count)`. -/
theorem inline_memset_aligned_access_loop_in_bounds (dst v count : Nat)
    (s : Store) :
    (2 * 4 < count → 4 ≤ count ∧
      (s ∈ inline_memset_aligned_access_32bit dst v count →
        dst ≤ s.addr ∧ s.addr + s.width ≤ dst + count)) ∧
    (2 * 8 < count → 8 ≤ count ∧
      (s ∈ inline_memset_aligned_access_64bit dst v count →
        dst ≤ s.addr ∧ s.addr + s.width ≤ dst + count)) := by
  constructor
  · intro h
    refine ⟨by omega, fun hs => ?_⟩
    obtain ⟨-, h2, h3⟩ := (aligned32_good dst v count).1 s hs
    exact ⟨h2, h3⟩
  · intro h
    refine ⟨by omega, fun hs => ?_⟩
    obtain ⟨-, h2, h3⟩ := (aligned64_good dst v count).1 s hs
    exact ⟨h2, h3⟩

/-- Witness for C5 at `dst = 6`, `v = 9`, `count = 20`, probing the first
aligned word store of the 32-bit variant. -/
theorem inline_memset_aligned_access_loop_in_bounds_witness :
    (2 * 4 < 20 → 4 ≤ 20 ∧
      (Store.mk 8 4 9 true ∈ inline_memset_aligned_access_32bit 6 9 20 →
        6 ≤ (Store.mk 8 4 9 true).addr ∧
        (Store.mk 8 4 9 true).addr + (Store.mk 8 4 9 true).width ≤ 6 + 20)) ∧
    (2 * 8 < 20 → 8 ≤ 20 ∧
      (Store.mk 8 4 9 true ∈ inline_memset_aligned_access_64bit 6 9 20 →
        6 ≤ (Store.mk 8 4 9 true).addr ∧
        (Store.mk 8 4 9 true).addr + (Store.mk 8 4 9 true).width ≤ 6 + 20)) :=
  inline_memset_aligned_access_loop_in_bounds 6 9 20 (Store.mk 8 4 9 true)

/-- C6: for every head+tail tier of width `w` and every count with
`w ≤ count ≤ 2*w`, each byte of the range is hit by the head store or the
tail store, bytes of the overlap region are hit by both stores (which carry
the identical splatted value), and the resulting memory equals a
byte-per-byte reference fill of the same range. -/
theorem head_tail_covers_and_matches_byte_fill (w dst v count : Nat) (m : Mem)
    (i x : Nat) (hw : 0 < w) (h1 : w ≤ count) (h2 : count ≤ 2 * w) :
    (i < count → covers (Store.mk dst w v false) (dst + i) ∨
      covers (Store.mk (dst + count - w) w v false) (dst + i)) ∧
    (count - w ≤ i → i < w →
      covers (Store.mk dst w v false) (dst + i) ∧
      covers (Store.mk (dst + count - w) w v false) (dst + i)) ∧
    runTrace (MemsetHeadTail w dst v count) m x =
      runTrace (inline_memset_byte_per_byte dst v count 0) m x := by
  refine ⟨?_, ?_, ?_⟩
  · intro hi
    by_cases hx : i < w
    · exact Or.inl (covers_mk (by omega) (by omega))
    · exact Or.inr (covers_mk (by omega) (by omega))
  · intro hi1 hi2
    exact ⟨covers_mk (by omega) (by omega), covers_mk (by omega) (by omega)⟩
  · obtain ⟨inH, outH⟩ := runTrace_fill _ dst (dst + count) v m
      (headTail_storesIn w dst v count h1) (headTail_covers w dst v count h1 h2)
    obtain ⟨inB, outB⟩ := runTrace_fill _ dst (dst + count) v m
      (byte_per_byte_good dst v count).1 (byte_per_byte_good dst v count).2
    by_cases hx : dst ≤ x ∧ x < dst + count
    · rw [inH x hx.1 hx.2, inB x hx.1 hx.2]
    · rw [outH x (by omega), outB x (by omega)]

/-- Witness for C6 at `w = 4`, `dst = 10`, `v = 9`, `count = 5` (overlapping
head and tail), constant memory `3`, overlap offset `2`, address `11`. -/
theorem head_tail_covers_and_matches_byte_fill_witness :
    (2 < 5 → covers (Store.mk 10 4 9 false) (10 + 2) ∨
      covers (Store.mk (10 + 5 - 4) 4 9 false) (10 + 2)) ∧
    (5 - 4 ≤ 2 → 2 < 4 →
      covers (Store.mk 10 4 9 false) (10 + 2) ∧
      covers (Store.mk (10 + 5 - 4) 4 9 false) (10 + 2)) ∧
    runTrace (MemsetHeadTail 4 10 9 5) (fun _ => 3) 11 =
      runTrace (inline_memset_byte_per_byte 10 9 5 0) (fun _ => 3) 11 :=
  head_tail_covers_and_matches_byte_fill 4 10 9 5 (fun _ => 3) 2 11
    (by decide) (by decide) (by decide)

/-- C7: a call with `count = 0` is a no-op on every architecture variant: the
emitted trace is empty (no store primitive is invoked) and memory is
untouched, whatever `dst` is. -/
theorem inline_memset_count_zero_noop (arch : Arch) (hz : Bool)
    (dst v x : Nat) (m : Mem) :
    inline_memset arch hz dst v 0 = [] ∧
    runTrace (inline_memset arch hz dst v 0) m x = m x := by
  have he : inline_memset arch hz dst v 0 = [] := by
    cases arch with
    | x86 => rfl
    | aarch64 => rfl
    | riscv64 =>
      show inline_memset_aligned_access_64bit dst v 0 = []
      unfold inline_memset_aligned_access_64bit
      rw [if_pos (by omega)]
      exact byte_per_byte_done dst v 0 0 (by omega)
    | riscv32 =>
      show inline_memset_aligned_access_32bit dst v 0 = []
      unfold inline_memset_aligned_access_32bit
      rw [if_pos (by omega)]
      exact byte_per_byte_done dst v 0 0 (by omega)
    | generic =>
      exact byte_per_byte_done dst v 0 0 (by omega)
  refine ⟨he, ?_⟩
  rw [he]
  rfl

/-- Witness for C7 at the riscv32 variant, `dst = 123`, `v = 7`, address `123`,
constant memory `5`. -/
theorem inline_memset_count_zero_noop_witness :
    inline_memset Arch.riscv32 false 123 7 0 = [] ∧
    runTrace (inline_memset Arch.riscv32 false 123 7 0) (fun _ => 5) 123 = 5 :=
  inline_memset_count_zero_noop Arch.riscv32 false 123 7 123 (fun _ => 5)

/-- C8: on AArch64, for `1 ≤ count ≤ 3`, the trace is an 8-bit store of
`value` at `dst` followed by a 16-bit tail store at `dst + count - 2` exactly
when `count > 1`; together these stores write `value` to exactly the bytes
`[dst, dst + count)`. -/
theorem inline_memset_aarch64_small_counts (hz : Bool) (dst v count : Nat)
    (m : Mem) (i x : Nat) (h1 : 1 ≤ count) (h3 : count ≤ 3) :
    inline_memset_aarch64 hz dst v count =
      Store.mk dst 1 v false ::
        (if 1 < count then [Store.mk (dst + count - 2) 2 v false] else []) ∧
    (i < count → runTrace (inline_memset_aarch64 hz dst v count) m (dst + i) = v) ∧
    ((x < dst ∨ dst + count ≤ x) →
      runTrace (inline_memset_aarch64 hz dst v count) m x = m x) := by
  refine ⟨?_, ?_, ?_⟩
  · unfold inline_memset_aarch64
    rw [if_neg (by omega), if_pos h3]
    unfold MemsetBlock MemsetTail
    by_cases h : 1 < count
    · rw [if_pos h]
      rfl
    · rw [if_neg h]
      rfl
  · intro hi
    obtain ⟨sg, cg⟩ := aarch64_good hz dst v count
    exact (runTrace_fill _ dst (dst + count) v m sg cg).1 (dst + i)
      (by omega) (by omega)
  · intro hx
    obtain ⟨sg, cg⟩ := aarch64_good hz dst v count
    exact (runTrace_fill _ dst (dst + count) v m sg cg).2 x hx

/-- Witness for C8 at `hz = true`, `dst = 40`, `v = 6`, `count = 3`, constant
memory `2`, inside offset `1`, outside address `43`. -/
theorem inline_memset_aarch64_small_counts_witness :
    inline_memset_aarch64 true 40 6 3 =
      Store.mk 40 1 6 false ::
        (if 1 < 3 then [Store.mk (40 + 3 - 2) 2 6 false] else []) ∧
    (1 < 3 → runTrace (inline_memset_aarch64 true 40 6 3) (fun _ => 2) (40 + 1) = 6) ∧
    ((43 < 40 ∨ 40 + 3 ≤ 43) →
      runTrace (inline_memset_aarch64 true 40 6 3) (fun _ => 2) 43 = 2) :=
  inline_memset_aarch64_small_counts true 40 6 3 (fun _ => 2) 1 43
    (by decide) (by decide)

/-- C9: in the aligned-access strategies every store issued through the
aligned-store primitive has an address that is a multiple of the word size,
so the aligned-store assertion can never fail. -/
theorem inline_memset_aligned_access_alignment_invariant (dst v count : Nat)
    (s : Store) :
    (s ∈ inline_memset_aligned_access_32bit dst v count → s.aligned = true →
      s.addr % 4 = 0) ∧
    (s ∈ inline_memset_aligned_access_64bit dst v count → s.aligned = true →
      s.addr % 8 = 0) := by
  constructor
  · intro hs hal
    unfold inline_memset_aligned_access_32bit at hs
    by_cases h : count ≤ 2 * 4
    · rw [if_pos h] at hs
      rw [byte_per_byte_unaligned dst v count 0 s hs] at hal
      simp at hal
    · rw [if_neg h] at hs
      have hs' : s ∈ inline_memset_byte_per_byte dst v (distance_to_align_up 4 dst) 0 ++
          (alignedWordLoop 4 dst v count (distance_to_align_up 4 dst)).1 ++
          inline_memset_byte_per_byte dst v count
            (alignedWordLoop 4 dst v count (distance_to_align_up 4 dst)).2 := hs
      rcases List.mem_append.mp hs' with hs2 | hs2
      · rcases List.mem_append.mp hs2 with hs3 | hs3
        · rw [byte_per_byte_unaligned dst v (distance_to_align_up 4 dst) 0 s hs3] at hal
          simp at hal
        · exact alignedWordLoop_aligned 4 dst v count (distance_to_align_up 4 dst)
            (add_distance_to_align_up 4 dst (by omega)) s hs3
      · rw [byte_per_byte_unaligned dst v count
          (alignedWordLoop 4 dst v count (distance_to_align_up 4 dst)).2 s hs2] at hal
        simp at hal
  · intro hs hal
    unfold inline_memset_aligned_access_64bit at hs
    by_cases h : count ≤ 2 * 8
    · rw [if_pos h] at hs
      rw [byte_per_byte_unaligned dst v count 0 s hs] at hal
      simp at hal
    · rw [if_neg h] at hs
      have hs' : s ∈ inline_memset_byte_per_byte dst v (distance_to_align_up 8 dst) 0 ++
          (alignedWordLoop 8 dst v count (distance_to_align_up 8 dst)).1 ++
          inline_memset_byte_per_byte dst v count
            (alignedWordLoop 8 dst v count (distance_to_align_up 8 dst)).2 := hs
      rcases List.mem_append.mp hs' with hs2 | hs2
      · rcases List.mem_append.mp hs2 with hs3 | hs3
        · rw [byte_per_byte_unaligned dst v (distance_to_align_up 8 dst) 0 s hs3] at hal
          simp at hal
        · exact alignedWordLoop_aligned 8 dst v count (distance_to_align_up 8 dst)
            (add_distance_to_align_up 8 dst (by omega)) s hs3
      · rw [byte_per_byte_unaligned dst v count
          (alignedWordLoop 8 dst v count (distance_to_align_up 8 dst)).2 s hs2] at hal
        simp at hal

/-- Witness for C9 at `dst = 6`, `v = 9`, `count = 20`, probing the first
aligned word store of the 32-bit variant. -/
theorem inline_memset_aligned_access_alignment_invariant_witness :
    (Store.mk 8 4 9 true ∈ inline_memset_aligned_access_32bit 6 9 20 →
      (Store.mk 8 4 9 true).aligned = true → (Store.mk 8 4 9 true).addr % 4 = 0) ∧
    (Store.mk 8 4 9 true ∈ inline_memset_aligned_access_64bit 6 9 20 →
      (Store.mk 8 4 9 true).aligned = true → (Store.mk 8 4 9 true).addr % 8 = 0) :=
  inline_memset_aligned_access_alignment_invariant 6 9 20 (Store.mk 8 4 9 true)

/-- C10: on AArch64, after the head block store and `align_to_next_boundary`,
the remaining count handed to a `loop_and_tail` routine is at least the loop's
64-byte block width — on the generic path (taken only for `count > 96`) and on
the cache-line-zeroing path (taken only for `count ≥ 448`) — so the tail
offset `count - 64` cannot underflow; moreover every store of the dispatcher
lies within the original `[dst, dst + count)`. -/
theorem inline_memset_aarch64_loop_count_lower_bound (hz : Bool)
    (dst v count : Nat) (s : Store) :
    (96 < count → 64 ≤ (align_to_next_boundary 16 dst count).2) ∧
    (448 ≤ count → 64 ≤ (align_to_next_boundary 64 dst count).2) ∧
    (s ∈ inline_memset_aarch64 hz dst v count →
      dst ≤ s.addr ∧ s.addr + s.width ≤ dst + count) := by
  refine ⟨?_, ?_, ?_⟩
  · intro h
    have := distance_to_align_up_lt 16 dst (by omega)
    show 64 ≤ count - distance_to_align_up 16 dst
    omega
  · intro h
    have := distance_to_align_up_lt 64 dst (by omega)
    show 64 ≤ count - distance_to_align_up 64 dst
    omega
  · intro hs
    obtain ⟨-, h2, h3⟩ := (aarch64_good hz dst v count).1 s hs
    exact ⟨h2, h3⟩

/-- Witness for C10 at `hz = true`, `dst = 3`, `v = 0`, `count = 448`, probing
the head block store. -/
theorem inline_memset_aarch64_loop_count_lower_bound_witness :
    (96 < 448 → 64 ≤ (align_to_next_boundary 16 3 448).2) ∧
    (448 ≤ 448 → 64 ≤ (align_to_next_boundary 64 3 448).2) ∧
    (Store.mk 3 64 0 false ∈ inline_memset_aarch64 true 3 0 448 →
      3 ≤ (Store.mk 3 64 0 false).addr ∧
      (Store.mk 3 64 0 false).addr + (Store.mk 3 64 0 false).width ≤ 3 + 448) :=
  inline_memset_aarch64_loop_count_lower_bound true 3 0 448 (Store.mk 3 64 0 false)

end LlvmLibcMemset
